import Mathlib

/-!
Verification of the Subversion working-tree bridge (workingtree.py).

The definitions below are a shallow embedding of the identity-mapping and
working-tree reconciliation engine: the file-id table codec
(_get_new_file_ids / _change_fileid_mapping), the file identity resolver
(find_ids / find_copies / path_to_file_id), the pending-merge bookkeeping
(set_pending_merges / add_pending_merge / pending_merges), the commit
sequence with its rollback, and the pull entry point.  External
collaborators (the basis-tree id map, branch path translation, the svk
feature codec) appear as function-valued parameters.
-/

namespace SvnWt

/-! ## String primitives

Python string operations used by the source, modelled over the character
list of a string.  splitlines is modelled for the newline character; the
source only ever writes blobs terminated by a newline. -/

/-- Python 2 str.splitlines, accumulating the current line.  Line
boundaries are the newline, the carriage return, and the carriage return
immediately followed by a newline (consumed as one boundary).  A trailing
fragment without a final boundary still forms a line; the empty string
has no lines. -/
def slAux : List Char → List Char → List String
  | [], cur => if cur.isEmpty then [] else [⟨cur⟩]
  | [c], cur =>
      if c = '\n' ∨ c = '\r' then [⟨cur⟩] else [⟨cur ++ [c]⟩]
  | c :: d :: rest2, cur =>
      if c = '\n' then ⟨cur⟩ :: slAux (d :: rest2) []
      else if c = '\r' then
        (if d = '\n' then ⟨cur⟩ :: slAux rest2 [] else ⟨cur⟩ :: slAux (d :: rest2) [])
      else slAux (d :: rest2) (cur ++ [c])

/-- Python 2 str.splitlines. -/
def splitlines (s : String) : List String := slAux s.data []

/-- Python str.split on the tab character: always returns at least one
field; the empty string yields one empty field. -/
def tabSplitAux : List Char → List Char → List String
  | [], cur => [⟨cur⟩]
  | c :: rest, cur =>
      if c = '\t' then ⟨cur⟩ :: tabSplitAux rest [] else tabSplitAux rest (cur ++ [c])

/-- Python line.split of a string on the tab character. -/
def tabSplit (s : String) : List String := tabSplitAux s.data []

/-- The tab character does not occur in the character list. -/
def noTab (cs : List Char) : Prop := '\t' ∉ cs

/-- The newline character does not occur in the character list. -/
def noNl (cs : List Char) : Prop := '\n' ∉ cs

/-- The carriage return does not occur in the character list. -/
def noCr (cs : List Char) : Prop := '\r' ∉ cs

/-- A string that is safe for one field of the line-oriented blobs: free
of tabs and of both line-boundary characters. -/
def cleanStr (s : String) : Prop := noTab s.data ∧ noNl s.data ∧ noCr s.data

instance (cs : List Char) : Decidable (noTab cs) := by unfold noTab; infer_instance
instance (cs : List Char) : Decidable (noNl cs) := by unfold noNl; infer_instance
instance (cs : List Char) : Decidable (noCr cs) := by unfold noCr; infer_instance
instance (s : String) : Decidable (cleanStr s) := by unfold cleanStr; infer_instance

/-! ## The file-id table codec

The working copy stores the path-to-fileid overrides as a property blob of
tab separated, newline terminated lines: the serialization at line 604 of
workingtree.py and the decoding at lines 610-618. -/

/-- The serialization in _change_fileid_mapping:
"".join(map(lambda (path, id): "%s\t%s\n" % (path, id), entries)). -/
def encodeTable : List (String × String) → String
  | [] => ""
  | (k, v) :: rest => ⟨k.data ++ '\t' :: (v.data ++ '\n' :: (encodeTable rest).data)⟩

/-- One line of the blob: str(x).split("\t"), fed to dict(), which demands
exactly two fields and raises ValueError otherwise. -/
def parseLine (line : String) : Except Unit (String × String) :=
  match tabSplit line with
  | [k, v] => .ok (k, v)
  | _ => .error ()

/-- Parse every line, propagating the first ValueError. -/
def parseLines : List String → Except Unit (List (String × String))
  | [] => .ok []
  | line :: rest => do
      let p ← parseLine line
      let ps ← parseLines rest
      pure (p :: ps)

/-- Python dict insertion: an existing key is overwritten in place, a new
key is appended. -/
def insertEntry : List (String × String) → String → String → List (String × String)
  | [], k, v => [(k, v)]
  | (a, b) :: rest, k, v => if a = k then (a, v) :: rest else (a, b) :: insertEntry rest k v

/-- Python del d[key] guarded by has_key: drop the entry for the key. -/
def eraseKey : List (String × String) → String → List (String × String)
  | [], _ => []
  | (a, b) :: rest, k => if a = k then eraseKey rest k else (a, b) :: eraseKey rest k

/-- Python dict lookup over the association list. -/
def lookupTable : List (String × String) → String → Option String
  | [], _ => none
  | (a, b) :: rest, k => if a = k then some b else lookupTable rest k

/-- dict(map(lambda x: str(x).split("\t"), existing.splitlines())): build
the table, raising on any line without exactly one tab. -/
def decodeBlob (blob : String) : Except Unit (List (String × String)) := do
  let pairs ← parseLines (splitlines blob)
  pure (pairs.foldl (fun acc p => insertEntry acc p.1 p.2) [])

/-- SvnWorkingTree._get_new_file_ids: an absent property or one equal to
the committed repository-side value decodes to the empty table; anything
else is decoded line by line. -/
def getNewFileIds (committed : String) (existing : Option String) :
    Except Unit (List (String × String)) :=
  match existing with
  | none => .ok []
  | some e => if committed = e then .ok [] else decodeBlob e

/-- SvnWorkingTree._change_fileid_mapping: read the current overrides,
delete or insert the given path, re-serialize, and write the property only
when the new blob is non-empty (the source guards the write with
existing != ""). -/
def changeFileidMapping (committed : String) (idOpt : Option String) (path : String)
    (prop : Option String) : Except Unit (Option String) := do
  let entries ← getNewFileIds committed prop
  let entries2 := match idOpt with
    | none => eraseKey entries path
    | some i => insertEntry entries path i
  let existing := encodeTable entries2
  if existing = "" then pure prop else pure (some existing)

/-- The id-table effect of SvnWorkingTree.remove: one
_change_fileid_mapping(None, file) per removed file (the foreign-store
delete is an external call). -/
def removeTable (committed : String) (files : List String) (prop : Option String) :
    Except Unit (Option String) :=
  match files with
  | [] => .ok prop
  | f :: rest => do
      let p2 ← changeFileidMapping committed none f prop
      removeTable committed rest p2

/-- The id-table effect of one entry of SvnWorkingTree.move: record the
new name under the identity of the source, then drop the old path. -/
def moveOneTable (committed : String) (srcId : Option String) (entry newName : String)
    (prop : Option String) : Except Unit (Option String) := do
  let p1 ← changeFileidMapping committed srcId newName prop
  changeFileidMapping committed none entry p1

/-- The id-table effect of SvnWorkingTree.rename_one: drop the old path,
then record the new path under the identity of the source. -/
def renameOneTable (committed : String) (fromId : Option String) (fromRel toRel : String)
    (prop : Option String) : Except Unit (Option String) := do
  let p1 ← changeFileidMapping committed none fromRel prop
  changeFileidMapping committed fromId toRel p1

/-- Every entry of the table has tab- and newline-free components. -/
def wfTable (l : List (String × String)) : Prop :=
  ∀ p ∈ l, cleanStr p.1 ∧ cleanStr p.2

/-- The paths of the table are pairwise distinct. -/
def keysNodup (l : List (String × String)) : Prop :=
  (l.map Prod.fst).Nodup

instance (l : List (String × String)) : Decidable (wfTable l) := by
  unfold wfTable; infer_instance

instance (l : List (String × String)) : Decidable (keysNodup l) := by
  unfold keysNodup; infer_instance

/-- The initial property value describing a decoded table: absent when the
table is empty, its serialization otherwise. -/
def encodeProp (t : List (String × String)) : Option String :=
  if t = [] then none else some (encodeTable t)

/-! ## Path and URL helpers -/

/-- os.path.join for the cases arising here (no absolute second argument):
joining with an empty tail appends a slash, Python style. -/
def ospJoin (a b : String) : String :=
  if b = "" then (if a = "" then "" else ⟨a.data ++ ['/']⟩)
  else if a = "" then b
  else ⟨a.data ++ '/' :: b.data⟩

/-- Python str.strip("/"): remove leading and trailing slashes. -/
def stripSlashes (s : String) : String :=
  ⟨((s.data.dropWhile (fun c => c = '/')).reverse.dropWhile (fun c => c = '/')).reverse⟩

/-- Python s[n:]: drop the first n characters. -/
def sliceFrom (s : String) (n : Nat) : String := ⟨s.data.drop n⟩

/-- Value of one hexadecimal digit, if it is one. -/
def hexVal (c : Char) : Option Nat :=
  if '0' ≤ c ∧ c ≤ '9' then some (c.toNat - '0'.toNat)
  else if 'a' ≤ c ∧ c ≤ 'f' then some (c.toNat - 'a'.toNat + 10)
  else if 'A' ≤ c ∧ c ≤ 'F' then some (c.toNat - 'A'.toNat + 10)
  else none

/-- urllib.unquote: decode percent escapes, leaving malformed escapes
untouched. -/
def unquoteChars : List Char → List Char
  | [] => []
  | c :: a :: b :: rest2 =>
      if c = '%' ∧ (hexVal a).isSome ∧ (hexVal b).isSome then
        Char.ofNat (16 * (hexVal a).getD 0 + (hexVal b).getD 0) :: unquoteChars rest2
      else c :: unquoteChars (a :: b :: rest2)
  | c :: rest => c :: unquoteChars rest

/-- urllib.unquote on a string. -/
def urlUnquote (s : String) : String := ⟨unquoteChars s.data⟩

/-- Lowercase hexadecimal digit for a value below 16. -/
def hexDigitChar (n : Nat) : Char :=
  if n < 10 then Char.ofNat ('0'.toNat + n) else Char.ofNat ('a'.toNat + n - 10)

/-- Characters kept verbatim by the path escape. -/
def isSafeChar (c : Char) : Bool :=
  c.isAlpha || c.isDigit || c = '/' || c = '.' || c = '-' || c = '_'

/-- Percent-encode every unsafe character. -/
def escapeChars : List Char → List Char
  | [] => []
  | c :: rest =>
      if isSafeChar c then c :: escapeChars rest
      else '%' :: hexDigitChar (c.toNat / 16 % 16) :: hexDigitChar (c.toNat % 16) :: escapeChars rest

/-- Modelled from the spec: escape_svn_path lives in the mapping module,
which is not among the sources; the spec only requires a deterministic
escaping of the path used to synthesize new identities.  It is modelled as
percent-style escaping of every character outside a safe set. -/
def escape_svn_path (s : String) : String := ⟨escapeChars s.data⟩

/-! ## The file identity resolver

WcEntry mirrors one row of wc.entries_read; WtEnv carries the root-level
entry list and the external collaborators the resolver consults: the
branch path, the persisted id-table property, and the basis-tree id map
(reached in the source through branch.unprefix and basis_tree().id_map,
both outside the sources, so they appear as opaque functions). -/

def SCHEDULE_NORMAL : Nat := 0
def SCHEDULE_ADD : Nat := 1
def SCHEDULE_DELETE : Nat := 2
def SCHEDULE_REPLACE : Nat := 3

structure WcEntry where
  name : String
  kind : Nat
  schedule : Nat
  url : String
  repos : String
  revision : Int
  cmt_rev : Int
  copyfrom_url : Option String
  copyfrom_rev : Int

structure WtEnv where
  branchPath : String
  entries : List WcEntry
  committedFileids : String
  idTableProp : Option String
  unprefixPath : String → String
  idMap : String → Option (String × Option String)

/-- In the source, find_copies tests entry.kind != 'directory', comparing
the integer node kind against a string literal; in Python 2 this
comparison is always unequal, so the test always passes. -/
def kind_ne_directory_string (_kind : Nat) : Prop := True

instance (k : Nat) : Decidable (kind_ne_directory_string k) := .isTrue trivial

/-- Python truthiness of an optional string: neither None nor empty. -/
def truthy (o : Option String) : Prop := o ≠ none ∧ o ≠ some ""

instance (o : Option String) : Decidable (truthy o) := by unfold truthy; infer_instance

/-- find_copies(url): scan the root entry list for entries whose
copy-from URL or URL equals the given URL exactly and that are not
scheduled for delete or replace, yielding the branch-path-joined relative
path.  The recursive call on subdirectories in the source builds a
generator that is never consumed, so only the root entries contribute. -/
def find_copies (env : WtEnv) (url : String) : List String :=
  env.entries.filterMap fun e =>
    if e.name = "" ∨ kind_ne_directory_string e.kind then
      if (e.copyfrom_url = some url ∨ e.url = url) ∧
          ¬ (e.schedule = SCHEDULE_DELETE ∨ e.schedule = SCHEDULE_REPLACE) then
        some (ospJoin (stripSlashes env.branchPath) (ospJoin "" e.name))
      else none
    else none

inductive Fault
  | badSchedule
  | assertFault
  | decodeFault
deriving DecidableEq

/-- urllib.unquote(entry.url[len(entry.repos):].strip("/")). -/
def relpathOf (e : WcEntry) : String :=
  urlUnquote (stripSlashes (sliceFrom e.url e.repos.data.length))

/-- path_to_file_id: assert the revision number is non-negative, then look
the unprefixed path up in the basis-tree id map; a missing entry or an
absent file id is an assertion failure in the source. -/
def path_to_file_id (env : WtEnv) (revnum : Int) (_currentRevnum : Int) (path : String) :
    Except Fault (String × Option String) :=
  if revnum < 0 then .error .assertFault
  else
    match env.idMap (env.unprefixPath path) with
    | none => .error .assertFault
    | some pair => .ok pair

/-- _get_new_file_ids over the root working copy, with its ValueError on
malformed blobs surfaced as a decode fault. -/
def getNewFileIdsE (env : WtEnv) : Except Fault (List (String × String)) :=
  match getNewFileIds env.committedFileids env.idTableProp with
  | .ok t => .ok t
  | .error _ => .error .decodeFault

/-- find_ids: resolve the identity of one working-copy entry.  Schedule
normal keeps the committed identity, delete yields no identity, add and
replace first try the copy-source rule, then the persisted id table, then
synthesize a NEW- identity; any other schedule violates the assertion at
the top of the source function. -/
def find_ids (env : WtEnv) (e : WcEntry) : Except Fault (Option (String × Option String)) :=
  let relpath := relpathOf e
  if e.schedule = SCHEDULE_NORMAL then
    if e.revision < 0 then .error .assertFault
    else (path_to_file_id env e.cmt_rev e.revision relpath).map some
  else if e.schedule = SCHEDULE_DELETE then
    .ok none
  else if e.schedule = SCHEDULE_ADD ∨ e.schedule = SCHEDULE_REPLACE then
    if truthy e.copyfrom_url ∧ find_copies env (e.copyfrom_url.getD "") = [relpath] then
      (path_to_file_id env e.copyfrom_rev e.revision
        (sliceFrom (e.copyfrom_url.getD "") e.repos.data.length)).map some
    else do
      let ids ← getNewFileIdsE env
      match lookupTable ids relpath with
      | some i => pure (some (i, none))
      | none =>
          pure (some ("NEW-" ++ escape_svn_path (stripSlashes (sliceFrom e.url e.repos.data.length)),
                      none))
  else .error .badSchedule

/-- The identity synthesized for newly added paths is marked by this
prefix. -/
def startsWithNEW (s : String) : Prop := s.data.take 4 = ['N', 'E', 'W', '-']

instance (s : String) : Decidable (startsWithNEW s) := by unfold startsWithNEW; infer_instance

/-! ## The commit sequence

svn_commit models SvnWorkingTree.commit from the staging of the two root
properties onward.  The repository-side persisted values (read by
_get_bzr_revids and branchprop_list.get_property), the staged strings and
the outcome of the foreign commit primitive are inputs; the working-copy
root properties and the basis pointer are the state. -/

def ERR_FS_TXN_OUT_OF_DATE : Nat := 160028

inductive CommitError
  | outOfDateTree
  | subversion (num : Nat)
  | localCommitsUnsupported
deriving DecidableEq

structure CommitEnv where
  committedRevids : String
  committedRevinfo : String
  extra : String
  metadata : String
  outcome : Except Nat Nat
  generateRevid : Nat → String

structure CommitState where
  propRevid : Option String
  propRevinfo : Option String
  baseRevnum : Nat
  baseRevid : Option String
deriving DecidableEq

/-- SvnWorkingTree.commit: refuse local commits; stage the revision-id
history (committed value plus the optional extra line) and the generated
revision metadata on the working-copy root; run the foreign commit; on
success advance the basis pointer; on any failure rewrite both properties
from the repository-side persisted values and re-raise, translating the
out-of-date code to OutOfDateTree. -/
def svn_commit (env : CommitEnv) (localFlag : Bool) (st : CommitState) :
    CommitState × Except CommitError String :=
  if localFlag then (st, .error .localCommitsUnsupported)
  else
    let staged : CommitState :=
      { st with
        propRevid := some (env.committedRevids ++ env.extra),
        propRevinfo := some env.metadata }
    match env.outcome with
    | .ok newRevnum =>
        let revid := env.generateRevid newRevnum
        ({ staged with baseRevid := some revid, baseRevnum := newRevnum }, .ok revid)
    | .error num =>
        let rolledBack : CommitState :=
          { staged with
            propRevid := some env.committedRevids,
            propRevinfo := some env.committedRevinfo }
        (rolledBack,
         .error (if num = ERR_FS_TXN_OUT_OF_DATE then .outOfDateTree else .subversion num))

/-! ## Pending merges

The bzr:ancestry property of the working copy against its committed
repository-side value; the svk feature set is carried along through the
opaque svk codec (the svk module is outside the sources). -/

structure MergeEnv where
  toSvkFeature : String → Option String
  parseSvk : String → List String
  serializeSvk : List String → String

structure MergeState where
  committed : String
  svkCommitted : String
  wcAncestry : Option String
  wcSvkMerge : Option String

/-- Python "\t".join. -/
def tabJoin : List String → String
  | [] => ""
  | [m] => m
  | m :: rest => ⟨m.data ++ '\t' :: (tabJoin rest).data⟩

/-- SvnWorkingTree.set_pending_merges: rewrite the working-copy ancestry
property as the committed value plus one tab-joined line when the list is
non-empty, and refresh the svk merge feature set. -/
def set_pending_merges (env : MergeEnv) (merges : List String) (st : MergeState) : MergeState :=
  let bzr_merge : String :=
    if merges.length > 0 then ⟨(tabJoin merges).data ++ ['\n']⟩ else ""
  { st with
    wcAncestry := some ⟨st.committed.data ++ bzr_merge.data⟩,
    wcSvkMerge := some (env.serializeSvk
      (env.parseSvk st.svkCommitted ++ merges.filterMap env.toSvkFeature)) }

/-- The lines of the working-copy ancestry property. -/
def wcAncLines (st : MergeState) : List String :=
  match st.wcAncestry with
  | none => []
  | some d => splitlines d

/-- SvnWorkingTree.pending_merges: compare the committed line count with
the working-copy line count, asserting they differ by at most one, and
return the tab-split last line when the working copy is longer. -/
def pending_merges (st : MergeState) : Except Fault (List String) :=
  let merged := splitlines st.committed
  let set_merged := wcAncLines st
  if merged.length = set_merged.length ∨ merged.length + 1 = set_merged.length then
    .ok (if merged.length < set_merged.length then tabSplit (set_merged.getLastD "") else [])
  else .error .assertFault

/-- SvnWorkingTree.add_pending_merge: read the pending list and append. -/
def add_pending_merge (env : MergeEnv) (revid : String) (st : MergeState) :
    Except Fault MergeState := do
  let merges ← pending_merges st
  pure (set_pending_merges env (merges ++ [revid]) st)

inductive MergeOp
  | setOp (merges : List String)
  | addOp (revid : String)

/-- Run a sequence of set_pending_merges / add_pending_merge calls. -/
def applyMergeOps (env : MergeEnv) : List MergeOp → MergeState → Except Fault MergeState
  | [], st => .ok st
  | .setOp m :: rest, st => applyMergeOps env rest (set_pending_merges env m st)
  | .addOp r :: rest, st => do
      let st2 ← add_pending_merge env r st
      applyMergeOps env rest st2

/-- The revision ids handed to an operation contain no line-boundary
character (neither newline nor carriage return). -/
def opClean : MergeOp → Prop
  | .setOp m => ∀ s ∈ m, noNl s.data ∧ noCr s.data
  | .addOp r => noNl r.data ∧ noCr r.data

instance (op : MergeOp) : Decidable (opClean op) := by
  cases op <;> (unfold opClean; infer_instance)

/-- The consistency invariant asserted by pending_merges: the working-copy
ancestry line count equals the committed line count or exceeds it by one. -/
def MergeInv (st : MergeState) : Prop :=
  (splitlines st.committed).length = (wcAncLines st).length ∨
  (splitlines st.committed).length + 1 = (wcAncLines st).length

instance (st : MergeState) : Decidable (MergeInv st) := by unfold MergeInv; infer_instance

/-- The committed ancestry blob is empty or newline terminated (it is only
ever written with a trailing newline). -/
def nlTerminated (s : String) : Prop := s = "" ∨ ∃ t, s.data = t ++ ['\n']

/-! ## pull -/

structure PullEnv where
  lastRevision : String
  lookupRevisionId : String → Int

inductive PullFault
  | nameErrorRevnum
deriving DecidableEq

/-- SvnWorkingTree.pull: default the stop revision to the last branch
revision and resolve it to a revision number, bound to the local variable
revnumber; the following update call evaluates the name revnum, which is
bound nowhere in the function, the enclosing class or the module, so
Python raises NameError before the update step can run. -/
def pull (env : PullEnv) (stopRevision : Option String) : Except PullFault (Int × String) :=
  let stop := match stopRevision with
    | none => env.lastRevision
    | some r => r
  let _revnumber : Int := env.lookupRevisionId stop
  .error .nameErrorRevnum

/-! ## Concrete instances used to exercise the theorems -/

def reposW : String := "http://svn/r"

/-- Copy source: path a of the branch. -/
def copySrcUrl : String := "http://svn/r/trunk/a"

def rootEntryW : WcEntry :=
  ⟨"", 2, SCHEDULE_NORMAL, "http://svn/r/trunk", reposW, 1, 1, none, -1⟩

/-- Path a, scheduled for deletion after being copied away. -/
def aEntryW : WcEntry :=
  ⟨"a", 1, SCHEDULE_DELETE, copySrcUrl, reposW, 1, 1, none, -1⟩

/-- Path b, the single surviving copy of a. -/
def bEntryW : WcEntry :=
  ⟨"b", 1, SCHEDULE_ADD, "http://svn/r/trunk/b", reposW, 1, 1, some copySrcUrl, 1⟩

/-- Working copy in which b is the only surviving reference to a. -/
def envMoveW : WtEnv :=
  ⟨"trunk", [rootEntryW, aEntryW, bEntryW], "", none,
   fun s => s, fun p => if p = "/trunk/a" then some ("A-ID", some "revA") else none⟩

def copySrcUrl2 : String := "http://svn/r/trunk/a2"

/-- Path b2, one of two surviving copies of a2. -/
def b2EntryW : WcEntry :=
  ⟨"b2", 1, SCHEDULE_ADD, "http://svn/r/trunk/b2", reposW, 1, 1, some copySrcUrl2, 1⟩

/-- Path c2, the other surviving copy of a2. -/
def c2EntryW : WcEntry :=
  ⟨"c2", 1, SCHEDULE_ADD, "http://svn/r/trunk/c2", reposW, 1, 1, some copySrcUrl2, 1⟩

/-- Working copy in which a2 was duplicated to b2 and c2. -/
def envDupW : WtEnv :=
  ⟨"trunk", [rootEntryW, b2EntryW, c2EntryW], "", none, fun s => s, fun _ => none⟩

/-- An entry carrying an unrecognized schedule code. -/
def badSchedEntryW : WcEntry :=
  ⟨"x", 1, 7, "http://svn/r/trunk/x", reposW, 1, 1, none, -1⟩

/-- An entry scheduled for deletion. -/
def delEntryW : WcEntry :=
  ⟨"y", 1, SCHEDULE_DELETE, "http://svn/r/trunk/y", reposW, 1, 1, none, -1⟩

def plainEnvW : WtEnv := ⟨"trunk", [], "", none, fun s => s, fun _ => none⟩

/-- An added entry with no copy-from information. -/
def addEntryW : WcEntry :=
  ⟨"n", 1, SCHEDULE_ADD, "http://svn/r/trunk/n", reposW, 1, 1, none, -1⟩

/-- Environment whose stored id-table property equals the committed value
byte for byte, although both contain an override for trunk/n. -/
def absorbEnvW : WtEnv :=
  ⟨"trunk", [], "trunk/n\tOVERRIDE\n", some "trunk/n\tOVERRIDE\n", fun s => s, fun _ => none⟩

def commitEnvW : CommitEnv :=
  ⟨"1 revA\n", "old-info", "2 revB\n", "new-info",
   .error ERR_FS_TXN_OUT_OF_DATE, fun n => "rev" ++ toString n⟩

def commitStW : CommitState := ⟨some "1 revA\n", some "old-info", 1, some "revA"⟩

def mergeEnvW : MergeEnv := ⟨fun _ => none, fun _ => [], fun _ => ""⟩

def mergeStW : MergeState := ⟨"", "", none, none⟩

/-! ## Lemmas about the line and field splitters -/

theorem string_eta (s : String) : (⟨s.data⟩ : String) = s := rfl

theorem slAux_append_nl_aux :
    ∀ (n : Nat) (t b cur : List Char), t.length ≤ n →
      slAux (t ++ '\n' :: b) cur = slAux (t ++ ['\n']) cur ++ slAux b [] := by
  intro n
  induction n with
  | zero =>
      intro t b cur ht
      have h0 : t = [] := List.eq_nil_of_length_eq_zero (Nat.le_zero.mp ht)
      subst h0
      cases b with
      | nil => simp [slAux]
      | cons d bs => simp [slAux]
  | succ n ih =>
      intro t b cur ht
      cases t with
      | nil =>
          cases b with
          | nil => simp [slAux]
          | cons d bs => simp [slAux]
      | cons c t2 =>
          cases t2 with
          | nil =>
              by_cases hc : c = '\n'
              · subst hc
                have h0 := ih [] b [] (by simp)
                simp only [List.cons_append, List.nil_append] at h0 ⊢
                simp [slAux, h0]
              · by_cases hr : c = '\r'
                · subst hr
                  simp [slAux]
                · have h0 := ih [] b (cur ++ [c]) (by simp)
                  simp only [List.cons_append, List.nil_append] at h0 ⊢
                  simp [slAux, hc, hr, h0]
          | cons e t3 =>
              have hlen : (e :: t3).length ≤ n := by
                simp only [List.length_cons] at ht ⊢
                omega
              have hlen3 : t3.length ≤ n := by
                simp only [List.length_cons] at ht
                omega
              by_cases hc : c = '\n'
              · subst hc
                have h1 := ih (e :: t3) b [] hlen
                simp only [List.cons_append] at h1 ⊢
                simp [slAux, h1]
              · by_cases hr : c = '\r'
                · subst hr
                  by_cases he : e = '\n'
                  · subst he
                    have h1 := ih t3 b [] hlen3
                    simp only [List.cons_append] at h1 ⊢
                    simp [slAux, h1]
                  · have h1 := ih (e :: t3) b [] hlen
                    simp only [List.cons_append] at h1 ⊢
                    simp [slAux, he, h1]
                · have h1 := ih (e :: t3) b (cur ++ [c]) hlen
                  simp only [List.cons_append] at h1 ⊢
                  simp [slAux, hc, hr, h1]

theorem slAux_append_nl (t : List Char) :
    ∀ (b cur : List Char), slAux (t ++ '\n' :: b) cur = slAux (t ++ ['\n']) cur ++ slAux b [] :=
  fun b cur => slAux_append_nl_aux t.length t b cur le_rfl

theorem slAux_no_nl (cs : List Char) (hn : noNl cs) (hcr : noCr cs) :
    ∀ cur, slAux (cs ++ ['\n']) cur = [⟨cur ++ cs⟩] := by
  induction cs with
  | nil =>
      intro cur
      simp [slAux]
  | cons c t ih =>
      intro cur
      have hc1 : c ≠ '\n' := fun h => hn (h ▸ List.mem_cons_self c t)
      have hc2 : c ≠ '\r' := fun h => hcr (h ▸ List.mem_cons_self c t)
      have ht1 : noNl t := fun h => hn (List.mem_cons_of_mem c h)
      have ht2 : noCr t := fun h => hcr (List.mem_cons_of_mem c h)
      cases t with
      | nil => simp [slAux, hc1, hc2]
      | cons e t2 =>
          have h1 := ih ht1 ht2 (cur ++ [c])
          simp only [List.cons_append] at h1 ⊢
          simp [slAux, hc1, hc2, h1, List.append_assoc]

theorem mem_slAux_clean :
    ∀ (cs cur : List Char), noNl cur → noCr cur →
      ∀ s ∈ slAux cs cur, noNl s.data ∧ noCr s.data := by
  intro cs cur
  induction cs, cur using slAux.induct with
  | case1 cur hem =>
      intro h1 h2 s hs
      simp [slAux, hem] at hs
  | case2 cur hem =>
      intro h1 h2 s hs
      simp [slAux, hem] at hs
      subst hs
      exact ⟨h1, h2⟩
  | case3 c cur hbrk =>
      intro h1 h2 s hs
      simp [slAux, hbrk] at hs
      subst hs
      exact ⟨h1, h2⟩
  | case4 c cur hbrk =>
      intro h1 h2 s hs
      push_neg at hbrk
      simp [slAux, hbrk.1, hbrk.2] at hs
      subst hs
      constructor
      · intro hm
        rcases List.mem_append.mp hm with hm | hm
        · exact h1 hm
        · simp at hm
          exact hbrk.1 hm.symm
      · intro hm
        rcases List.mem_append.mp hm with hm | hm
        · exact h2 hm
        · simp at hm
          exact hbrk.2 hm.symm
  | case5 d rest2 cur ih =>
      intro h1 h2 s hs
      simp only [slAux, if_pos rfl] at hs
      rcases List.mem_cons.mp hs with hs | hs
      · subst hs; exact ⟨h1, h2⟩
      · exact ih (by simp [noNl]) (by simp [noCr]) s hs
  | case6 rest2 cur hne ih =>
      intro h1 h2 s hs
      simp [slAux] at hs
      rcases hs with hs | hs
      · subst hs; exact ⟨h1, h2⟩
      · exact ih (by simp [noNl]) (by simp [noCr]) s hs
  | case7 d rest2 cur hd hne ih =>
      intro h1 h2 s hs
      simp [slAux, hd] at hs
      rcases hs with hs | hs
      · subst hs; exact ⟨h1, h2⟩
      · exact ih (by simp [noNl]) (by simp [noCr]) s hs
  | case8 c d rest2 cur hc hr ih =>
      intro h1 h2 s hs
      simp [slAux, hc, hr] at hs
      refine ih ?_ ?_ s hs
      · intro hm
        rcases List.mem_append.mp hm with hm | hm
        · exact h1 hm
        · simp at hm; exact hc hm.symm
      · intro hm
        rcases List.mem_append.mp hm with hm | hm
        · exact h2 hm
        · simp at hm; exact hr hm.symm

theorem tabSplitAux_no_tab (cs : List Char) (h : noTab cs) :
    ∀ cur, tabSplitAux cs cur = [⟨cur ++ cs⟩] := by
  induction cs with
  | nil =>
      intro cur
      simp [tabSplitAux]
  | cons c t ih =>
      intro cur
      have hc : c ≠ '\t' := fun hcn => h (hcn ▸ List.mem_cons_self c t)
      have ht : noTab t := fun hm => h (List.mem_cons_of_mem c hm)
      simp [tabSplitAux, hc, ih ht, List.append_assoc]

theorem tabSplitAux_append (k : List Char) (hk : noTab k) :
    ∀ (v cur : List Char), tabSplitAux (k ++ '\t' :: v) cur = ⟨cur ++ k⟩ :: tabSplitAux v [] := by
  induction k with
  | nil =>
      intro v cur
      simp [tabSplitAux]
  | cons c t ih =>
      intro v cur
      have hc : c ≠ '\t' := fun hcn => hk (hcn ▸ List.mem_cons_self c t)
      have ht : noTab t := fun hm => hk (List.mem_cons_of_mem c hm)
      simp [tabSplitAux, hc, ih ht, List.append_assoc]

theorem parseLine_pair (k v : String) (hk : noTab k.data) (hv : noTab v.data) :
    parseLine ⟨k.data ++ '\t' :: v.data⟩ = .ok (k, v) := by
  unfold parseLine tabSplit
  have h1 : tabSplitAux (k.data ++ '\t' :: v.data) [] = ⟨[] ++ k.data⟩ :: tabSplitAux v.data [] :=
    tabSplitAux_append k.data hk v.data []
  rw [show (⟨k.data ++ '\t' :: v.data⟩ : String).data = k.data ++ '\t' :: v.data from rfl] at *
  rw [h1, tabSplitAux_no_tab v.data hv []]
  simp [string_eta]

/-! ## Round-trip of the file-id table codec -/

theorem encodeTable_data (k v : String) (rest : List (String × String)) :
    (encodeTable ((k, v) :: rest)).data
      = (k.data ++ '\t' :: v.data) ++ '\n' :: (encodeTable rest).data := by
  simp [encodeTable, List.append_assoc]

theorem encodeTable_ne_empty (k v : String) (rest : List (String × String)) :
    encodeTable ((k, v) :: rest) ≠ "" := by
  intro h
  have hd := congrArg String.data h
  rw [encodeTable_data] at hd
  simp at hd

theorem splitlines_encodeTable (m : List (String × String)) (hw : wfTable m) :
    splitlines (encodeTable m) = m.map (fun p => ⟨p.1.data ++ '\t' :: p.2.data⟩) := by
  induction m with
  | nil => rfl
  | cons p rest ih =>
      obtain ⟨k, v⟩ := p
      have hkv := hw (k, v) (List.mem_cons_self _ _)
      have hrest : wfTable rest := fun q hq => hw q (List.mem_cons_of_mem _ hq)
      have hnl : noNl (k.data ++ '\t' :: v.data) := by
        intro hm
        rcases List.mem_append.mp hm with hm | hm
        · exact hkv.1.2.1 hm
        · rcases List.mem_cons.mp hm with hm | hm
          · exact absurd hm.symm (by decide)
          · exact hkv.2.2.1 hm
      have hcr : noCr (k.data ++ '\t' :: v.data) := by
        intro hm
        rcases List.mem_append.mp hm with hm | hm
        · exact hkv.1.2.2 hm
        · rcases List.mem_cons.mp hm with hm | hm
          · exact absurd hm.symm (by decide)
          · exact hkv.2.2.2 hm
      unfold splitlines
      rw [encodeTable_data,
          slAux_append_nl (k.data ++ '\t' :: v.data) (encodeTable rest).data [],
          slAux_no_nl (k.data ++ '\t' :: v.data) hnl hcr []]
      unfold splitlines at ih
      rw [ih hrest]
      simp

theorem parseLines_map (m : List (String × String)) (hw : wfTable m) :
    parseLines (m.map (fun p => ⟨p.1.data ++ '\t' :: p.2.data⟩)) = .ok m := by
  induction m with
  | nil => rfl
  | cons p rest ih =>
      obtain ⟨k, v⟩ := p
      have hkv := hw (k, v) (List.mem_cons_self _ _)
      have hrest : wfTable rest := fun q hq => hw q (List.mem_cons_of_mem _ hq)
      simp only [List.map_cons, parseLines,
        parseLine_pair k v hkv.1.1 hkv.2.1, ih hrest]
      rfl

theorem insertEntry_of_not_mem (l : List (String × String)) (k v : String)
    (h : k ∉ l.map Prod.fst) : insertEntry l k v = l ++ [(k, v)] := by
  induction l with
  | nil => rfl
  | cons p rest ih =>
      obtain ⟨a, b⟩ := p
      have ha : a ≠ k := by
        intro hak
        exact h (by simp [hak])
      have hrest : k ∉ rest.map Prod.fst := fun hm => h (by simp [hm])
      simp [insertEntry, ha, ih hrest]

theorem foldl_insertEntry_fresh (m : List (String × String)) :
    ∀ acc, (∀ k ∈ m.map Prod.fst, k ∉ acc.map Prod.fst) → keysNodup m →
      m.foldl (fun acc p => insertEntry acc p.1 p.2) acc = acc ++ m := by
  induction m with
  | nil =>
      intro acc _ _
      simp
  | cons p rest ih =>
      intro acc hd hnd
      obtain ⟨k, v⟩ := p
      have hk : k ∉ acc.map Prod.fst := hd k (by simp)
      have hnd2 : keysNodup rest := by
        unfold keysNodup at hnd ⊢
        simp only [List.map_cons, List.nodup_cons] at hnd
        exact hnd.2
      have hknotrest : k ∉ rest.map Prod.fst := by
        unfold keysNodup at hnd
        simp only [List.map_cons, List.nodup_cons] at hnd
        exact hnd.1
      simp only [List.foldl_cons]
      rw [insertEntry_of_not_mem acc k v hk]
      rw [ih (acc ++ [(k, v)]) ?_ hnd2]
      · simp
      · intro k2 hk2 hmem
        rw [List.map_append] at hmem
        rcases List.mem_append.mp hmem with hmem | hmem
        · exact hd k2 (by simp [hk2]) hmem
        · simp at hmem
          subst hmem
          exact hknotrest hk2

theorem decodeBlob_encodeTable (m : List (String × String))
    (hw : wfTable m) (hnd : keysNodup m) :
    decodeBlob (encodeTable m) = .ok m := by
  unfold decodeBlob
  rw [splitlines_encodeTable m hw, parseLines_map m hw]
  show Except.ok (m.foldl (fun acc p => insertEntry acc p.1 p.2) []) = Except.ok m
  rw [foldl_insertEntry_fresh m [] (by simp) hnd]
  simp

theorem getNewFileIds_encodeTable (m : List (String × String))
    (hw : wfTable m) (hnd : keysNodup m) :
    getNewFileIds "" (some (encodeTable m)) = .ok m := by
  cases m with
  | nil => rfl
  | cons p rest =>
      obtain ⟨k, v⟩ := p
      rw [show getNewFileIds "" (some (encodeTable ((k, v) :: rest)))
            = if "" = encodeTable ((k, v) :: rest) then Except.ok []
              else decodeBlob (encodeTable ((k, v) :: rest)) from rfl]
      rw [if_neg (fun h => encodeTable_ne_empty k v rest h.symm)]
      exact decodeBlob_encodeTable _ hw hnd

/-! ## Lemmas about the table operations -/

theorem lookupTable_insertEntry_self (l : List (String × String)) (k v : String) :
    lookupTable (insertEntry l k v) k = some v := by
  induction l with
  | nil => simp [insertEntry, lookupTable]
  | cons p rest ih =>
      obtain ⟨a, b⟩ := p
      by_cases ha : a = k
      · simp [insertEntry, lookupTable, ha]
      · simp [insertEntry, lookupTable, ha, ih]

theorem lookupTable_insertEntry_ne (l : List (String × String)) (k v k2 : String)
    (h : k2 ≠ k) : lookupTable (insertEntry l k v) k2 = lookupTable l k2 := by
  induction l with
  | nil => simp [insertEntry, lookupTable, Ne.symm h]
  | cons p rest ih =>
      obtain ⟨a, b⟩ := p
      by_cases ha : a = k
      · subst ha
        have hak2 : ¬ (a = k2) := fun he => h he.symm
        simp [insertEntry, lookupTable, hak2]
      · by_cases ha2 : a = k2
        · subst ha2
          simp [insertEntry, lookupTable, ha]
        · simp [insertEntry, lookupTable, ha, ha2, ih]

theorem lookupTable_eraseKey_self (l : List (String × String)) (k : String) :
    lookupTable (eraseKey l k) k = none := by
  induction l with
  | nil => simp [eraseKey, lookupTable]
  | cons p rest ih =>
      obtain ⟨a, b⟩ := p
      by_cases ha : a = k
      · simp [eraseKey, ha, ih]
      · simp [eraseKey, lookupTable, ha, ih]

theorem lookupTable_eraseKey_ne (l : List (String × String)) (k k2 : String)
    (h : k2 ≠ k) : lookupTable (eraseKey l k) k2 = lookupTable l k2 := by
  induction l with
  | nil => simp [eraseKey, lookupTable]
  | cons p rest ih =>
      obtain ⟨a, b⟩ := p
      by_cases ha : a = k
      · subst ha
        have hak2 : ¬ (a = k2) := fun he => h he.symm
        simp [eraseKey, lookupTable, hak2, ih]
      · by_cases ha2 : a = k2
        · subst ha2
          simp [eraseKey, lookupTable, ha]
        · simp [eraseKey, lookupTable, ha, ha2, ih]

theorem insertEntry_ne_nil (l : List (String × String)) (k v : String) :
    insertEntry l k v ≠ [] := by
  cases l with
  | nil => simp [insertEntry]
  | cons p rest =>
      obtain ⟨a, b⟩ := p
      by_cases ha : a = k
      · simp [insertEntry, ha]
      · simp [insertEntry, ha]

theorem mem_insertEntry (l : List (String × String)) (k v : String) (q : String × String)
    (h : q ∈ insertEntry l k v) : q ∈ l ∨ q = (k, v) ∨ (∃ b, (q.1, b) ∈ l ∧ q = (q.1, v)) := by
  induction l with
  | nil =>
      simp [insertEntry] at h
      exact Or.inr (Or.inl h)
  | cons p rest ih =>
      obtain ⟨a, b⟩ := p
      by_cases ha : a = k
      · subst ha
        simp [insertEntry] at h
        rcases h with h | h
        · exact Or.inr (Or.inr ⟨b, by simp [h]⟩)
        · exact Or.inl (List.mem_cons_of_mem _ h)
      · simp [insertEntry, ha] at h
        rcases h with h | h
        · exact Or.inl (by simp [h])
        · rcases ih h with h2 | h2 | h2
          · exact Or.inl (List.mem_cons_of_mem _ h2)
          · exact Or.inr (Or.inl h2)
          · rcases h2 with ⟨b2, hb2, hq⟩
            exact Or.inr (Or.inr ⟨b2, List.mem_cons_of_mem _ hb2, hq⟩)

theorem wfTable_insertEntry (l : List (String × String)) (k v : String)
    (hw : wfTable l) (hk : cleanStr k) (hv : cleanStr v) :
    wfTable (insertEntry l k v) := by
  intro q hq
  rcases mem_insertEntry l k v q hq with h | h | h
  · exact hw q h
  · subst h; exact ⟨hk, hv⟩
  · rcases h with ⟨b, hb, hq2⟩
    have := hw (q.1, b) hb
    rw [hq2]
    exact ⟨this.1, hv⟩

theorem eraseKey_subset (l : List (String × String)) (k : String) (q : String × String)
    (h : q ∈ eraseKey l k) : q ∈ l := by
  induction l with
  | nil => simp [eraseKey] at h
  | cons p rest ih =>
      obtain ⟨a, b⟩ := p
      by_cases ha : a = k
      · simp [eraseKey, ha] at h
        exact List.mem_cons_of_mem _ (ih h)
      · simp [eraseKey, ha] at h
        rcases h with h | h
        · exact by simp [h]
        · exact List.mem_cons_of_mem _ (ih h)

theorem wfTable_eraseKey (l : List (String × String)) (k : String) (hw : wfTable l) :
    wfTable (eraseKey l k) :=
  fun q hq => hw q (eraseKey_subset l k q hq)

theorem keys_insertEntry (l : List (String × String)) (k v x : String)
    (h : x ∈ (insertEntry l k v).map Prod.fst) : x ∈ l.map Prod.fst ∨ x = k := by
  induction l with
  | nil =>
      simp [insertEntry] at h
      exact Or.inr h
  | cons p rest ih =>
      obtain ⟨a, b⟩ := p
      by_cases ha : a = k
      · subst ha
        simp [insertEntry] at h
        rcases h with h | h
        · exact Or.inr h
        · exact Or.inl (by simp [h])
      · simp [insertEntry, ha] at h
        rcases h with h | h
        · exact Or.inl (by simp [h])
        · rcases ih (by simpa using h) with h2 | h2
          · exact Or.inl (by simp at h2 ⊢; exact Or.inr h2)
          · exact Or.inr h2

theorem keysNodup_insertEntry (l : List (String × String)) (k v : String)
    (hnd : keysNodup l) : keysNodup (insertEntry l k v) := by
  induction l with
  | nil => simp [insertEntry, keysNodup]
  | cons p rest ih =>
      obtain ⟨a, b⟩ := p
      unfold keysNodup at hnd
      simp only [List.map_cons, List.nodup_cons] at hnd
      have hnd2 : keysNodup rest := hnd.2
      by_cases ha : a = k
      · subst ha
        have hstep : insertEntry ((a, b) :: rest) a v = (a, v) :: rest := by
          simp [insertEntry]
        unfold keysNodup
        rw [hstep]
        simp only [List.map_cons, List.nodup_cons]
        exact ⟨hnd.1, hnd.2⟩
      · have hstep : insertEntry ((a, b) :: rest) k v = (a, b) :: insertEntry rest k v := by
          simp [insertEntry, ha]
        unfold keysNodup
        rw [hstep]
        simp only [List.map_cons, List.nodup_cons]
        refine ⟨fun hmem => ?_, ih hnd2⟩
        rcases keys_insertEntry rest k v a hmem with h2 | h2
        · exact hnd.1 h2
        · exact ha h2

theorem encodeTable_ne_empty_of_ne_nil (l : List (String × String)) (h : l ≠ []) :
    encodeTable l ≠ "" := by
  cases l with
  | nil => exact absurd rfl h
  | cons p rest =>
      obtain ⟨k, v⟩ := p
      exact encodeTable_ne_empty k v rest

theorem encodeProp_of_ne_nil (l : List (String × String)) (h : l ≠ []) :
    encodeProp l = some (encodeTable l) := by
  unfold encodeProp
  rw [if_neg h]

theorem getNewFileIds_encodeProp (t : List (String × String))
    (hw : wfTable t) (hnd : keysNodup t) :
    getNewFileIds "" (encodeProp t) = .ok t := by
  cases t with
  | nil => rfl
  | cons p rest =>
      rw [encodeProp_of_ne_nil _ (by simp)]
      exact getNewFileIds_encodeTable _ hw hnd

theorem changeFileidMapping_insert (t : List (String × String))
    (hw : wfTable t) (hnd : keysNodup t) (i p : String) :
    changeFileidMapping "" (some i) p (encodeProp t)
      = .ok (some (encodeTable (insertEntry t p i))) := by
  unfold changeFileidMapping
  rw [getNewFileIds_encodeProp t hw hnd]
  simp only [Bind.bind, Except.bind]
  rw [if_neg (encodeTable_ne_empty_of_ne_nil _ (insertEntry_ne_nil t p i))]
  rfl

theorem changeFileidMapping_erase (t : List (String × String))
    (hw : wfTable t) (hnd : keysNodup t) (p : String) :
    changeFileidMapping "" none p (encodeProp t)
      = .ok (if eraseKey t p = [] then encodeProp t
             else some (encodeTable (eraseKey t p))) := by
  unfold changeFileidMapping
  rw [getNewFileIds_encodeProp t hw hnd]
  simp only [Bind.bind, Except.bind]
  by_cases he : eraseKey t p = []
  · rw [if_pos he]
    rw [show encodeTable (eraseKey t p) = "" from by rw [he]; rfl]
    simp
    rfl
  · rw [if_neg he, if_neg (encodeTable_ne_empty_of_ne_nil _ he)]
    rfl

/-! ## Lemmas about the pending-merge bookkeeping -/

theorem mem_tabSplitAux_not_mem (x : Char) (cs : List Char) :
    ∀ cur s, x ∉ cur → x ∉ cs → s ∈ tabSplitAux cs cur → x ∉ s.data := by
  induction cs with
  | nil =>
      intro cur s hcur _ hs
      simp [tabSplitAux] at hs
      subst hs; exact hcur
  | cons c t ih =>
      intro cur s hcur hcs hs
      have hct : x ∉ t := fun hm => hcs (List.mem_cons_of_mem c hm)
      by_cases hc : c = '\t'
      · subst hc
        simp [tabSplitAux] at hs
        rcases hs with hs | hs
        · subst hs; exact hcur
        · exact ih [] s (by simp) hct hs
      · simp [tabSplitAux, hc] at hs
        refine ih (cur ++ [c]) s ?_ hct hs
        intro hm
        rcases List.mem_append.mp hm with hm | hm
        · exact hcur hm
        · simp at hm
          subst hm
          exact hcs (List.mem_cons_self _ _)

theorem tabJoin_not_mem (x : Char) (hx : x ≠ '\t') (m : List String)
    (h : ∀ s ∈ m, x ∉ s.data) : x ∉ (tabJoin m).data := by
  induction m with
  | nil => simp [tabJoin]
  | cons s rest ih =>
      cases rest with
      | nil => exact h s (by simp)
      | cons s2 rest2 =>
          show x ∉ (tabJoin (s :: s2 :: rest2)).data
          have hd : (tabJoin (s :: s2 :: rest2)).data
              = s.data ++ '\t' :: (tabJoin (s2 :: rest2)).data := rfl
          rw [hd]
          intro hm
          rcases List.mem_append.mp hm with hm | hm
          · exact h s (by simp) hm
          · rcases List.mem_cons.mp hm with hm | hm
            · exact hx hm
            · exact ih (fun q hq => h q (List.mem_cons_of_mem _ hq)) hm

theorem splitlines_committed_append (c : String) (hc : nlTerminated c) (b : List Char) :
    slAux (c.data ++ b) [] = splitlines c ++ slAux b [] := by
  rcases hc with hc | ⟨t, ht⟩
  · subst hc
    rfl
  · rw [ht]
    rw [show (t ++ ['\n']) ++ b = t ++ '\n' :: b by simp]
    rw [slAux_append_nl t b []]
    unfold splitlines
    rw [ht]

theorem getLastD_mem {α : Type} (l : List α) (d : α) (h : l ≠ []) : l.getLastD d ∈ l := by
  induction l with
  | nil => exact absurd rfl h
  | cons a rest ih =>
      cases rest with
      | nil => simp [List.getLastD]
      | cons b t =>
          have : (a :: b :: t).getLastD d = (b :: t).getLastD d := by
            simp [List.getLastD]
          rw [this]
          exact List.mem_cons_of_mem _ (ih (by simp))

theorem set_pending_merges_committed (env : MergeEnv) (merges : List String)
    (st : MergeState) : (set_pending_merges env merges st).committed = st.committed := rfl

theorem MergeInv_set (env : MergeEnv) (merges : List String) (st : MergeState)
    (hc : nlTerminated st.committed) (hm : ∀ s ∈ merges, noNl s.data ∧ noCr s.data) :
    MergeInv (set_pending_merges env merges st) := by
  unfold MergeInv
  rw [set_pending_merges_committed]
  have hlines : wcAncLines (set_pending_merges env merges st)
      = slAux (st.committed.data
          ++ (if merges.length > 0 then (⟨(tabJoin merges).data ++ ['\n']⟩ : String) else "").data) [] := rfl
  rw [hlines]
  cases merges with
  | nil =>
      simp only [List.length_nil, gt_iff_lt, lt_self_iff_false, if_false]
      rw [List.append_nil]
      exact Or.inl rfl
  | cons m0 mrest =>
      simp only [List.length_cons, gt_iff_lt, Nat.succ_pos, if_pos]
      rw [splitlines_committed_append st.committed hc _]
      rw [slAux_no_nl (tabJoin (m0 :: mrest)).data
            (tabJoin_not_mem '\n' (by decide) _ (fun q hq => (hm q hq).1))
            (tabJoin_not_mem '\r' (by decide) _ (fun q hq => (hm q hq).2)) []]
      simp

theorem mem_wcAncLines_clean (st : MergeState) (s : String) (hs : s ∈ wcAncLines st) :
    noNl s.data ∧ noCr s.data := by
  unfold wcAncLines at hs
  cases hw : st.wcAncestry with
  | none => rw [hw] at hs; simp at hs
  | some d =>
      rw [hw] at hs
      exact mem_slAux_clean d.data [] (by simp [noNl]) (by simp [noCr]) s hs

theorem pending_merges_ok (st : MergeState) (h : MergeInv st) :
    ∃ l, pending_merges st = .ok l ∧ ∀ s ∈ l, noNl s.data ∧ noCr s.data := by
  unfold pending_merges
  unfold MergeInv at h
  rw [if_pos h]
  by_cases hlt : (splitlines st.committed).length < (wcAncLines st).length
  · rw [if_pos hlt]
    refine ⟨_, rfl, ?_⟩
    intro s hs
    have hwc : wcAncLines st ≠ [] := by
      intro hnil
      rw [hnil] at hlt
      simp at hlt
    have hlast : (wcAncLines st).getLastD "" ∈ wcAncLines st := getLastD_mem _ _ hwc
    have hlineClean : noNl ((wcAncLines st).getLastD "").data ∧
        noCr ((wcAncLines st).getLastD "").data :=
      mem_wcAncLines_clean st _ hlast
    constructor
    · exact mem_tabSplitAux_not_mem '\n' _ [] s (by simp) hlineClean.1 hs
    · exact mem_tabSplitAux_not_mem '\r' _ [] s (by simp) hlineClean.2 hs
  · rw [if_neg hlt]
    exact ⟨[], rfl, by simp⟩

theorem keysNodup_eraseKey (l : List (String × String)) (k : String)
    (hnd : keysNodup l) : keysNodup (eraseKey l k) := by
  induction l with
  | nil => simp [eraseKey, keysNodup]
  | cons p rest ih =>
      obtain ⟨a, b⟩ := p
      unfold keysNodup at hnd
      simp only [List.map_cons, List.nodup_cons] at hnd
      by_cases ha : a = k
      · simp only [eraseKey, ha, if_pos rfl]
        exact ih hnd.2
      · unfold keysNodup
        simp only [eraseKey, if_neg ha, List.map_cons, List.nodup_cons]
        constructor
        · intro hmem
          simp at hmem
          rcases hmem with ⟨b2, hb2⟩
          exact hnd.1 (by simp; exact ⟨b2, eraseKey_subset rest k (a, b2) hb2⟩)
        · exact ih hnd.2

/-! ## Remaining helper lemmas -/

theorem data_append (a b : String) : (a ++ b).data = a.data ++ b.data := by
  cases a; cases b; rfl

theorem startsWithNEW_append (x : String) : startsWithNEW ("NEW-" ++ x) := by
  unfold startsWithNEW
  rw [data_append]
  rfl

theorem parseLines_error (l : List String) (line : String) (hmem : line ∈ l)
    (herr : parseLine line = .error ()) : parseLines l = .error () := by
  induction l with
  | nil => simp at hmem
  | cons a rest ih =>
      rcases List.mem_cons.mp hmem with h | h
      · subst h
        unfold parseLines
        rw [herr]
        rfl
      · unfold parseLines
        cases hpa : parseLine a with
        | error e => cases e; rfl
        | ok p =>
            rw [ih h]
            rfl

theorem path_to_file_id_ne_badSchedule (env : WtEnv) (revnum cur : Int) (path : String) :
    path_to_file_id env revnum cur path ≠ .error .badSchedule := by
  unfold path_to_file_id
  by_cases h : revnum < 0
  · rw [if_pos h]
    intro hh
    exact Fault.noConfusion (Except.error.inj hh)
  · rw [if_neg h]
    cases env.idMap (env.unprefixPath path) with
    | none =>
        intro hh
        exact Fault.noConfusion (Except.error.inj hh)
    | some pair =>
        intro hh
        exact Except.noConfusion hh

theorem map_some_ne_badSchedule (x : Except Fault (String × Option String))
    (hx : x ≠ .error .badSchedule) : x.map some ≠ .error .badSchedule := by
  cases x with
  | ok v =>
      intro hh
      exact Except.noConfusion hh
  | error f =>
      intro hh
      have hf : f = .badSchedule := Except.error.inj hh
      exact hx (by rw [hf])

theorem getNewFileIdsE_cases (env : WtEnv) :
    (∃ t, getNewFileIdsE env = .ok t) ∨ getNewFileIdsE env = .error .decodeFault := by
  unfold getNewFileIdsE
  cases getNewFileIds env.committedFileids env.idTableProp with
  | ok t => exact Or.inl ⟨t, rfl⟩
  | error e => exact Or.inr rfl

/-! ## The claims -/

/-- C1: Commit rollback — when the foreign commit call fails with any
error code, both staged root properties are rewritten back to the values
read from the repository-side persisted property history before the error
propagates, the basis revision pointer is unchanged, and the out-of-date
code is raised as OutOfDateTree while any other code is re-raised as the
underlying foreign error. -/
theorem commit_rollback (env : CommitEnv) (st : CommitState) (num : Nat)
    (hfail : env.outcome = .error num) :
    (svn_commit env false st).1.propRevid = some env.committedRevids ∧
    (svn_commit env false st).1.propRevinfo = some env.committedRevinfo ∧
    (svn_commit env false st).1.baseRevnum = st.baseRevnum ∧
    (svn_commit env false st).1.baseRevid = st.baseRevid ∧
    (svn_commit env false st).2 =
      .error (if num = ERR_FS_TXN_OUT_OF_DATE then CommitError.outOfDateTree
              else CommitError.subversion num) := by
  simp [svn_commit, hfail]

/-- Witness for C1 at a concrete failing commit. -/
theorem commit_rollback_witness :
    commitEnvW.outcome = .error ERR_FS_TXN_OUT_OF_DATE ∧
    ((svn_commit commitEnvW false commitStW).1.propRevid = some commitEnvW.committedRevids ∧
     (svn_commit commitEnvW false commitStW).1.propRevinfo = some commitEnvW.committedRevinfo ∧
     (svn_commit commitEnvW false commitStW).1.baseRevnum = commitStW.baseRevnum ∧
     (svn_commit commitEnvW false commitStW).1.baseRevid = commitStW.baseRevid ∧
     (svn_commit commitEnvW false commitStW).2 =
       .error (if ERR_FS_TXN_OUT_OF_DATE = ERR_FS_TXN_OUT_OF_DATE then CommitError.outOfDateTree
               else CommitError.subversion ERR_FS_TXN_OUT_OF_DATE)) :=
  ⟨rfl, commit_rollback commitEnvW commitStW ERR_FS_TXN_OUT_OF_DATE rfl⟩

/-- C3: Merge-list consistency — starting from a state satisfying the
length invariant, any sequence of set_pending_merges and add_pending_merge
calls (over newline-free revision ids, against a newline-terminated or
empty committed ancestry) succeeds, re-establishes the invariant that the
working-copy ancestry line count equals the committed line count or
exceeds it by exactly one, and leaves every subsequent pending_merges read
succeeding without the internal consistency assertion firing. -/
theorem merge_list_invariant (env : MergeEnv) (ops : List MergeOp) (st : MergeState)
    (hc : nlTerminated st.committed)
    (hops : ∀ op ∈ ops, opClean op)
    (hinv : MergeInv st) :
    ∃ st2, applyMergeOps env ops st = .ok st2 ∧ MergeInv st2 ∧
      ∃ l, pending_merges st2 = .ok l := by
  induction ops generalizing st with
  | nil =>
      obtain ⟨l, hl, _⟩ := pending_merges_ok st hinv
      exact ⟨st, rfl, hinv, l, hl⟩
  | cons op rest ih =>
      cases op with
      | setOp m =>
          have hm : ∀ s ∈ m, noNl s.data ∧ noCr s.data := hops (.setOp m) (by simp)
          have hinv2 := MergeInv_set env m st hc hm
          have hc2 : nlTerminated (set_pending_merges env m st).committed := by
            rw [set_pending_merges_committed]; exact hc
          obtain ⟨st2, h1, h2, h3⟩ :=
            ih (set_pending_merges env m st) hc2
              (fun op2 h => hops op2 (List.mem_cons_of_mem _ h)) hinv2
          exact ⟨st2, h1, h2, h3⟩
      | addOp r =>
          obtain ⟨l, hl, hlc⟩ := pending_merges_ok st hinv
          have hr : noNl r.data ∧ noCr r.data := hops (.addOp r) (by simp)
          have hm : ∀ s ∈ l ++ [r], noNl s.data ∧ noCr s.data := by
            intro s hs
            rcases List.mem_append.mp hs with hs | hs
            · exact hlc s hs
            · simp at hs; subst hs; exact hr
          have hinv2 := MergeInv_set env (l ++ [r]) st hc hm
          have hc2 : nlTerminated (set_pending_merges env (l ++ [r]) st).committed := by
            rw [set_pending_merges_committed]; exact hc
          obtain ⟨st2, h1, h2, h3⟩ :=
            ih (set_pending_merges env (l ++ [r]) st) hc2
              (fun op2 h => hops op2 (List.mem_cons_of_mem _ h)) hinv2
          refine ⟨st2, ?_, h2, h3⟩
          have hadd : add_pending_merge env r st
              = .ok (set_pending_merges env (l ++ [r]) st) := by
            unfold add_pending_merge
            rw [hl]
            rfl
          show applyMergeOps env (.addOp r :: rest) st = .ok st2
          rw [show applyMergeOps env (.addOp r :: rest) st
                = Bind.bind (add_pending_merge env r st) (applyMergeOps env rest) from rfl]
          rw [hadd]
          exact h1

/-- Witness for C3 on a concrete operation sequence. -/
theorem merge_list_invariant_witness :
    nlTerminated mergeStW.committed ∧
    (∀ op ∈ [MergeOp.setOp ["r1"], MergeOp.addOp "r2"], opClean op) ∧
    MergeInv mergeStW ∧
    (∃ st2, applyMergeOps mergeEnvW [MergeOp.setOp ["r1"], MergeOp.addOp "r2"] mergeStW
        = .ok st2 ∧ MergeInv st2 ∧ ∃ l, pending_merges st2 = .ok l) :=
  ⟨Or.inl rfl, by decide, by decide,
   merge_list_invariant mergeEnvW [MergeOp.setOp ["r1"], MergeOp.addOp "r2"] mergeStW
     (Or.inl rfl) (by decide) (by decide)⟩

/-- C4 counterexample: decoding the stored blob "abc" (one line with no
tab separator, different from the committed value) raises the dict
construction error instead of yielding an empty mapping, refuting the
claimed totality. -/
theorem decode_malformed_counterexample :
    getNewFileIds "" (some "abc") = .error () ∧
    ¬ getNewFileIds "" (some "abc") = .ok [] := by
  constructor
  · rfl
  · intro h
    have h2 : (Except.error () : Except Unit (List (String × String))) = Except.ok [] := h
    exact Except.noConfusion h2

/-- C4 (amended): decoding an absent blob, or a blob byte-equal to the
committed repository-side value, yields the empty mapping and never
raises; decoding a stored blob that differs from the committed value and
contains a line without exactly one tab separator raises the decode
error. -/
theorem decode_totality_amended :
    (∀ committed : String, getNewFileIds committed none = .ok []) ∧
    (∀ blob : String, getNewFileIds blob (some blob) = .ok []) ∧
    (∀ (committed blob line : String), committed ≠ blob →
      line ∈ splitlines blob → parseLine line = .error () →
      getNewFileIds committed (some blob) = .error ()) := by
  refine ⟨fun _ => rfl, fun b => by simp [getNewFileIds], ?_⟩
  intro c b line hne hmem herr
  rw [show getNewFileIds c (some b) = if c = b then Except.ok [] else decodeBlob b from rfl]
  rw [if_neg hne]
  unfold decodeBlob
  rw [parseLines_error (splitlines b) line hmem herr]
  rfl

/-- Witness for C4 (amended) at concrete blobs. -/
theorem decode_totality_amended_witness :
    getNewFileIds "zz" none = .ok [] ∧
    getNewFileIds "zz" (some "zz") = .ok [] ∧
    (("x" : String) ≠ "abc" ∧ "abc" ∈ splitlines "abc" ∧
      parseLine "abc" = .error () ∧ getNewFileIds "x" (some "abc") = .error ()) :=
  ⟨decode_totality_amended.1 "zz", decode_totality_amended.2.1 "zz",
   by decide, by decide, rfl,
   decode_totality_amended.2.2 "x" "abc" "abc" (by decide) (by decide) rfl⟩

/-- C5 counterexample: a mapping whose path contains a tab breaks the
round trip — the stored blob re-splits into three fields and decoding
raises instead of returning the mapping. -/
theorem idtable_roundtrip_counterexample :
    getNewFileIds "" (some (encodeTable [("a\tb", "c")])) = .error () ∧
    ¬ getNewFileIds "" (some (encodeTable [("a\tb", "c")])) = .ok [("a\tb", "c")] := by
  constructor
  · rfl
  · intro h
    have h2 : (Except.error () : Except Unit (List (String × String)))
        = Except.ok [("a\tb", "c")] := h
    exact Except.noConfusion h2

/-- C5 (amended): for every mapping whose paths and ids are free of tab
and newline characters and whose paths are distinct, encoding as the
tab/newline-delimited table, storing, and decoding back (against an empty
committed value) returns the mapping unchanged, including the empty and
the single-entry mapping. -/
theorem idtable_roundtrip_amended (m : List (String × String))
    (hw : wfTable m) (hnd : keysNodup m) :
    getNewFileIds "" (some (encodeTable m)) = .ok m :=
  getNewFileIds_encodeTable m hw hnd

/-- Witness for C5 (amended) at a single-entry mapping. -/
theorem idtable_roundtrip_amended_witness :
    wfTable [("p", "i")] ∧ keysNodup [("p", "i")] ∧
    getNewFileIds "" (some (encodeTable [("p", "i")])) = .ok [("p", "i")] :=
  ⟨by decide, by decide, idtable_roundtrip_amended [("p", "i")] (by decide) (by decide)⟩

/-- C7 (code bug): removing the last tracked path is supposed to leave the
persisted table without that entry, but _change_fileid_mapping only
writes a non-empty serialization, so the property keeps its old value and
reading the table back still maps the removed path. -/
theorem remove_idtable_empty_write_bug :
    removeTable "" ["a"] (some "a\tx\n") = .ok (some "a\tx\n") ∧
    (getNewFileIds "" (some "a\tx\n")).map (fun t => lookupTable t "a") = .ok (some "x") :=
  ⟨rfl, rfl⟩

/-- C9 (code bug): every pull invocation, with or without an explicit stop
revision, fails with the NameError raised on evaluating the unbound
variable revnum; the revision number resolved into revnumber is never
passed to the update step. -/
theorem pull_name_error (env : PullEnv) (stopRevision : Option String) :
    pull env stopRevision = .error .nameErrorRevnum := rfl

/-- C10: whenever the stored file-id table property equals the committed
repository-side value byte for byte, it decodes as the empty mapping, so
identity resolution of an added entry ignores every override it contains
and synthesizes a NEW- identity, and a subsequent _change_fileid_mapping
update starts from the empty table, keeping only the entry it inserts. -/
theorem committed_equal_absorption :
    (∀ committed : String, getNewFileIds committed (some committed) = .ok []) ∧
    (∀ (env : WtEnv) (e : WcEntry),
      env.idTableProp = some env.committedFileids →
      e.schedule = SCHEDULE_ADD → e.copyfrom_url = none →
      find_ids env e = .ok (some ("NEW-" ++ escape_svn_path
        (stripSlashes (sliceFrom e.url e.repos.data.length)), none))) ∧
    (∀ (committed i p : String),
      changeFileidMapping committed (some i) p (some committed)
        = .ok (some (encodeTable [(p, i)]))) := by
  have habs : ∀ committed : String, getNewFileIds committed (some committed) = .ok [] := by
    intro c
    rw [show getNewFileIds c (some c) = if c = c then Except.ok [] else decodeBlob c from rfl]
    rw [if_pos rfl]
  refine ⟨habs, ?_, ?_⟩
  · intro env e hprop hsch hcf
    have hE : getNewFileIdsE env = .ok [] := by
      unfold getNewFileIdsE
      rw [hprop, habs env.committedFileids]
    simp only [find_ids, hsch, hcf]
    rw [if_neg (by decide : ¬ SCHEDULE_ADD = SCHEDULE_NORMAL),
        if_neg (by decide : ¬ SCHEDULE_ADD = SCHEDULE_DELETE),
        if_pos (Or.inl trivial : True ∨ SCHEDULE_ADD = SCHEDULE_REPLACE)]
    rw [if_neg (by simp [truthy] : ¬ (truthy (none : Option String) ∧
          find_copies env ((none : Option String).getD "") = [relpathOf e]))]
    rw [hE]
    rfl
  · intro c i p
    unfold changeFileidMapping
    rw [habs c]
    simp only [Bind.bind, Except.bind]
    rw [if_neg (show ¬ encodeTable (insertEntry [] p i) = "" from encodeTable_ne_empty p i [])]
    rfl

/-- Witness for C10 at a stored table equal to the committed value, both
containing an override for the very path being resolved. -/
theorem committed_equal_absorption_witness :
    getNewFileIds "trunk/n\tOVERRIDE\n" (some "trunk/n\tOVERRIDE\n") = .ok [] ∧
    (absorbEnvW.idTableProp = some absorbEnvW.committedFileids ∧
     addEntryW.schedule = SCHEDULE_ADD ∧ addEntryW.copyfrom_url = none ∧
     find_ids absorbEnvW addEntryW = .ok (some ("NEW-" ++ escape_svn_path
       (stripSlashes (sliceFrom addEntryW.url addEntryW.repos.data.length)), none))) ∧
    changeFileidMapping "trunk/n\tOVERRIDE\n" (some "i2") "p2" (some "trunk/n\tOVERRIDE\n")
      = .ok (some (encodeTable [("p2", "i2")])) :=
  ⟨committed_equal_absorption.1 "trunk/n\tOVERRIDE\n",
   ⟨rfl, rfl, rfl, committed_equal_absorption.2.1 absorbEnvW addEntryW rfl rfl rfl⟩,
   committed_equal_absorption.2.2 "trunk/n\tOVERRIDE\n" "i2" "p2"⟩

/-- C8: an entry whose schedule is none of the four recognized values
makes identity resolution fail with the schedule consistency fault, and
for every recognized schedule this fault is unreachable — find_ids never
reports it. -/
theorem unrecognized_schedule_fault :
    (∀ (env : WtEnv) (e : WcEntry),
      e.schedule ≠ SCHEDULE_NORMAL → e.schedule ≠ SCHEDULE_ADD →
      e.schedule ≠ SCHEDULE_DELETE → e.schedule ≠ SCHEDULE_REPLACE →
      find_ids env e = .error .badSchedule) ∧
    (∀ (env : WtEnv) (e : WcEntry),
      e.schedule = SCHEDULE_NORMAL ∨ e.schedule = SCHEDULE_ADD ∨
        e.schedule = SCHEDULE_DELETE ∨ e.schedule = SCHEDULE_REPLACE →
      find_ids env e ≠ .error .badSchedule) := by
  constructor
  · intro env e h0 h1 h2 h3
    simp only [find_ids]
    rw [if_neg h0, if_neg h2, if_neg (fun hh => Or.elim hh h1 h3)]
  · intro env e h
    simp only [find_ids]
    rcases h with h | h | h | h
    · rw [if_pos h]
      by_cases hr : e.revision < 0
      · rw [if_pos hr]
        intro hh
        exact Fault.noConfusion (Except.error.inj hh)
      · rw [if_neg hr]
        exact map_some_ne_badSchedule _
          (path_to_file_id_ne_badSchedule env e.cmt_rev e.revision (relpathOf e))
    · rw [if_neg (by rw [h]; decide), if_neg (by rw [h]; decide),
          if_pos (Or.inl h)]
      by_cases hcopy : truthy e.copyfrom_url ∧
          find_copies env (e.copyfrom_url.getD "") = [relpathOf e]
      · rw [if_pos hcopy]
        exact map_some_ne_badSchedule _
          (path_to_file_id_ne_badSchedule env e.copyfrom_rev e.revision _)
      · rw [if_neg hcopy]
        rcases getNewFileIdsE_cases env with ⟨t, ht⟩ | ht
        · rw [ht]
          simp only [Bind.bind, Except.bind]
          cases lookupTable t (relpathOf e) with
          | some i =>
              intro hh
              exact Except.noConfusion (show Except.ok (some (i, none))
                = Except.error Fault.badSchedule from hh)
          | none =>
              intro hh
              exact Except.noConfusion (show Except.ok
                  (some ("NEW-" ++ escape_svn_path (stripSlashes (sliceFrom e.url e.repos.data.length)),
                    (none : Option String)))
                = Except.error Fault.badSchedule from hh)
        · rw [ht]
          intro hh
          exact Fault.noConfusion (Except.error.inj hh)
    · rw [if_neg (by rw [h]; decide), if_pos h]
      intro hh
      exact Except.noConfusion hh
    · rw [if_neg (by rw [h]; decide), if_neg (by rw [h]; decide),
          if_pos (Or.inr h)]
      by_cases hcopy : truthy e.copyfrom_url ∧
          find_copies env (e.copyfrom_url.getD "") = [relpathOf e]
      · rw [if_pos hcopy]
        exact map_some_ne_badSchedule _
          (path_to_file_id_ne_badSchedule env e.copyfrom_rev e.revision _)
      · rw [if_neg hcopy]
        rcases getNewFileIdsE_cases env with ⟨t, ht⟩ | ht
        · rw [ht]
          simp only [Bind.bind, Except.bind]
          cases lookupTable t (relpathOf e) with
          | some i =>
              intro hh
              exact Except.noConfusion (show Except.ok (some (i, none))
                = Except.error Fault.badSchedule from hh)
          | none =>
              intro hh
              exact Except.noConfusion (show Except.ok
                  (some ("NEW-" ++ escape_svn_path (stripSlashes (sliceFrom e.url e.repos.data.length)),
                    (none : Option String)))
                = Except.error Fault.badSchedule from hh)
        · rw [ht]
          intro hh
          exact Fault.noConfusion (Except.error.inj hh)

/-- Witness for C8: a schedule code of 7 faults, a recognized delete
schedule never reports the schedule fault. -/
theorem unrecognized_schedule_fault_witness :
    (badSchedEntryW.schedule ≠ SCHEDULE_NORMAL ∧
     badSchedEntryW.schedule ≠ SCHEDULE_ADD ∧
     badSchedEntryW.schedule ≠ SCHEDULE_DELETE ∧
     badSchedEntryW.schedule ≠ SCHEDULE_REPLACE ∧
     find_ids plainEnvW badSchedEntryW = .error .badSchedule) ∧
    ((delEntryW.schedule = SCHEDULE_NORMAL ∨ delEntryW.schedule = SCHEDULE_ADD ∨
        delEntryW.schedule = SCHEDULE_DELETE ∨ delEntryW.schedule = SCHEDULE_REPLACE) ∧
     find_ids plainEnvW delEntryW ≠ .error .badSchedule) :=
  ⟨⟨by decide, by decide, by decide, by decide,
    unrecognized_schedule_fault.1 plainEnvW badSchedEntryW
      (by decide) (by decide) (by decide) (by decide)⟩,
   ⟨Or.inr (Or.inr (Or.inl rfl)),
    unrecognized_schedule_fault.2 plainEnvW delEntryW (Or.inr (Or.inr (Or.inl rfl)))⟩⟩

/-- C2: Copy-source identity rule — when the copy-source search over the
working copy (matching the copy-from URL exactly and skipping entries
scheduled for delete or replace) returns exactly the resolved path
itself, find_ids reuses the identity the normal-path rule assigns to the
copy source at the copy-from revision; when two or more paths survive
with the same copy-from URL and the persisted table holds no override,
the entry instead receives a freshly synthesized NEW- identity distinct
from the identity of the source. -/
theorem copy_source_identity_rule :
    (∀ (env : WtEnv) (e : WcEntry) (u : String),
      (e.schedule = SCHEDULE_ADD ∨ e.schedule = SCHEDULE_REPLACE) →
      e.copyfrom_url = some u → u ≠ "" →
      find_copies env u = [relpathOf e] →
      find_ids env e =
        (path_to_file_id env e.copyfrom_rev e.revision
          (sliceFrom u e.repos.data.length)).map some) ∧
    (∀ (env : WtEnv) (e : WcEntry) (u : String) (tbl : List (String × String)) (srcId : String),
      (e.schedule = SCHEDULE_ADD ∨ e.schedule = SCHEDULE_REPLACE) →
      e.copyfrom_url = some u →
      2 ≤ (find_copies env u).length →
      getNewFileIds env.committedFileids env.idTableProp = .ok tbl →
      lookupTable tbl (relpathOf e) = none →
      ¬ startsWithNEW srcId →
      find_ids env e = .ok (some
          ("NEW-" ++ escape_svn_path (stripSlashes (sliceFrom e.url e.repos.data.length)), none)) ∧
        "NEW-" ++ escape_svn_path (stripSlashes (sliceFrom e.url e.repos.data.length)) ≠ srcId) := by
  constructor
  · intro env e u hsch hcf hune hfc
    have h0 : ¬ e.schedule = SCHEDULE_NORMAL := by
      rcases hsch with h | h <;> rw [h] <;> decide
    have h2 : ¬ e.schedule = SCHEDULE_DELETE := by
      rcases hsch with h | h <;> rw [h] <;> decide
    simp only [find_ids]
    rw [if_neg h0, if_neg h2, if_pos hsch]
    have hgd : e.copyfrom_url.getD "" = u := by rw [hcf]; rfl
    have htr : truthy e.copyfrom_url := by
      rw [hcf]
      exact ⟨by simp, by simp [hune]⟩
    rw [if_pos (by rw [hgd]; exact ⟨htr, hfc⟩ :
          truthy e.copyfrom_url ∧ find_copies env (e.copyfrom_url.getD "") = [relpathOf e])]
    rw [hgd]
  · intro env e u tbl srcId hsch hcf hlen hids hlook hnotnew
    have h0 : ¬ e.schedule = SCHEDULE_NORMAL := by
      rcases hsch with h | h <;> rw [h] <;> decide
    have h2 : ¬ e.schedule = SCHEDULE_DELETE := by
      rcases hsch with h | h <;> rw [h] <;> decide
    have hfcne : ¬ (truthy e.copyfrom_url ∧
        find_copies env (e.copyfrom_url.getD "") = [relpathOf e]) := by
      intro hand
      have hh := hand.2
      rw [hcf] at hh
      rw [show (some u).getD "" = u from rfl] at hh
      rw [hh] at hlen
      simp at hlen
    have hE : getNewFileIdsE env = .ok tbl := by
      unfold getNewFileIdsE
      rw [hids]
    constructor
    · simp only [find_ids]
      rw [if_neg h0, if_neg h2, if_pos hsch, if_neg hfcne, hE]
      simp only [Bind.bind, Except.bind]
      rw [hlook]
      rfl
    · intro heq
      exact hnotnew (heq ▸ startsWithNEW_append
        (escape_svn_path (stripSlashes (sliceFrom e.url e.repos.data.length))))

/-- Witness for C2: b is the sole surviving copy of the deleted a and
takes over its identity; b2 and c2 both survive as copies of a2 and each
receives a NEW- identity differing from the identity of the source. -/
theorem copy_source_identity_rule_witness :
    ((bEntryW.schedule = SCHEDULE_ADD ∨ bEntryW.schedule = SCHEDULE_REPLACE) ∧
     bEntryW.copyfrom_url = some copySrcUrl ∧ copySrcUrl ≠ "" ∧
     find_copies envMoveW copySrcUrl = [relpathOf bEntryW] ∧
     find_ids envMoveW bEntryW =
       (path_to_file_id envMoveW bEntryW.copyfrom_rev bEntryW.revision
         (sliceFrom copySrcUrl reposW.data.length)).map some ∧
     find_ids envMoveW bEntryW = .ok (some ("A-ID", some "revA"))) ∧
    ((b2EntryW.schedule = SCHEDULE_ADD ∨ b2EntryW.schedule = SCHEDULE_REPLACE) ∧
     b2EntryW.copyfrom_url = some copySrcUrl2 ∧
     2 ≤ (find_copies envDupW copySrcUrl2).length ∧
     getNewFileIds envDupW.committedFileids envDupW.idTableProp = .ok [] ∧
     lookupTable [] (relpathOf b2EntryW) = none ∧
     ¬ startsWithNEW "A-ID" ∧
     (find_ids envDupW b2EntryW = .ok (some
         ("NEW-" ++ escape_svn_path (stripSlashes (sliceFrom b2EntryW.url b2EntryW.repos.data.length)),
          none)) ∧
       "NEW-" ++ escape_svn_path (stripSlashes (sliceFrom b2EntryW.url b2EntryW.repos.data.length))
         ≠ "A-ID")) :=
  ⟨⟨Or.inl rfl, rfl, by decide, by decide,
    copy_source_identity_rule.1 envMoveW bEntryW copySrcUrl (Or.inl rfl) rfl
      (by decide) (by decide), rfl⟩,
   ⟨Or.inl rfl, rfl, by decide, rfl, rfl, by decide,
    copy_source_identity_rule.2 envDupW b2EntryW copySrcUrl2 [] "A-ID" (Or.inl rfl) rfl
      (by decide) rfl rfl (by decide)⟩⟩

/-- C6 counterexample: renaming path a (the only entry of the persisted
table) to b leaves an entry for the old path behind: dropping a would
empty the table, the empty serialization is not written, and the
subsequent insert re-reads and re-serializes the stale entry, so the
table afterwards still maps a. -/
theorem move_rename_idtable_counterexample :
    renameOneTable "" (some "x") "a" "b" (some "a\tx\n") = .ok (some "a\tx\nb\tx\n") ∧
    (getNewFileIds "" (some "a\tx\nb\tx\n")).map (fun t => lookupTable t "a")
      = .ok (some "x") :=
  ⟨rfl, rfl⟩

/-- C6 (amended): with no repository-side committed table and tab- and
newline-free names, a move drops the old path and always records the new
path under the identity of the source, and a rename always records the
new path and drops the old path unless the removal would leave the
intermediate table empty, in which case the old entry persists. -/
theorem move_rename_idtable_amended (t0 : List (String × String))
    (i oldPath newPath : String)
    (hw : wfTable t0) (hnd : keysNodup t0)
    (hci : cleanStr i) (_hco : cleanStr oldPath) (hcn : cleanStr newPath)
    (hne : oldPath ≠ newPath) :
    (∃ p1 t1,
      moveOneTable "" (some i) oldPath newPath (encodeProp t0) = .ok p1 ∧
      getNewFileIds "" p1 = .ok t1 ∧
      lookupTable t1 oldPath = none ∧
      lookupTable t1 newPath = some i) ∧
    (∃ p2 t2,
      renameOneTable "" (some i) oldPath newPath (encodeProp t0) = .ok p2 ∧
      getNewFileIds "" p2 = .ok t2 ∧
      lookupTable t2 newPath = some i ∧
      lookupTable t2 oldPath =
        (if eraseKey t0 oldPath = [] then lookupTable t0 oldPath else none)) := by
  have hwIns : wfTable (insertEntry t0 newPath i) := wfTable_insertEntry t0 newPath i hw hcn hci
  have hndIns : keysNodup (insertEntry t0 newPath i) := keysNodup_insertEntry t0 newPath i hnd
  constructor
  · have hstep1 : changeFileidMapping "" (some i) newPath (encodeProp t0)
        = .ok (some (encodeTable (insertEntry t0 newPath i))) :=
      changeFileidMapping_insert t0 hw hnd i newPath
    have hprop1 : some (encodeTable (insertEntry t0 newPath i))
        = encodeProp (insertEntry t0 newPath i) :=
      (encodeProp_of_ne_nil _ (insertEntry_ne_nil t0 newPath i)).symm
    have hstep2 : changeFileidMapping "" none oldPath (encodeProp (insertEntry t0 newPath i))
        = .ok (if eraseKey (insertEntry t0 newPath i) oldPath = []
               then encodeProp (insertEntry t0 newPath i)
               else some (encodeTable (eraseKey (insertEntry t0 newPath i) oldPath))) :=
      changeFileidMapping_erase (insertEntry t0 newPath i) hwIns hndIns oldPath
    have hlooknew : lookupTable (eraseKey (insertEntry t0 newPath i) oldPath) newPath = some i := by
      rw [lookupTable_eraseKey_ne (insertEntry t0 newPath i) oldPath newPath (Ne.symm hne)]
      exact lookupTable_insertEntry_self t0 newPath i
    have hkeep : eraseKey (insertEntry t0 newPath i) oldPath ≠ [] := by
      intro hnil
      rw [hnil] at hlooknew
      exact Option.noConfusion (show (none : Option String) = some i from hlooknew)
    have hwE : wfTable (eraseKey (insertEntry t0 newPath i) oldPath) :=
      wfTable_eraseKey _ oldPath hwIns
    have hndE : keysNodup (eraseKey (insertEntry t0 newPath i) oldPath) :=
      keysNodup_eraseKey _ oldPath hndIns
    refine ⟨some (encodeTable (eraseKey (insertEntry t0 newPath i) oldPath)),
            eraseKey (insertEntry t0 newPath i) oldPath, ?_, ?_, ?_, ?_⟩
    · unfold moveOneTable
      rw [hstep1]
      simp only [Bind.bind, Except.bind]
      rw [hprop1, hstep2, if_neg hkeep]
    · rw [show some (encodeTable (eraseKey (insertEntry t0 newPath i) oldPath))
            = encodeProp (eraseKey (insertEntry t0 newPath i) oldPath) from
          (encodeProp_of_ne_nil _ hkeep).symm]
      exact getNewFileIds_encodeProp _ hwE hndE
    · exact lookupTable_eraseKey_self (insertEntry t0 newPath i) oldPath
    · exact hlooknew
  · have hstep1 : changeFileidMapping "" none oldPath (encodeProp t0)
        = .ok (if eraseKey t0 oldPath = [] then encodeProp t0
               else some (encodeTable (eraseKey t0 oldPath))) :=
      changeFileidMapping_erase t0 hw hnd oldPath
    by_cases hnil : eraseKey t0 oldPath = []
    · have hstep2 : changeFileidMapping "" (some i) newPath (encodeProp t0)
          = .ok (some (encodeTable (insertEntry t0 newPath i))) :=
        changeFileidMapping_insert t0 hw hnd i newPath
      refine ⟨some (encodeTable (insertEntry t0 newPath i)), insertEntry t0 newPath i,
              ?_, ?_, ?_, ?_⟩
      · unfold renameOneTable
        rw [hstep1]
        simp only [Bind.bind, Except.bind]
        rw [if_pos hnil]
        exact hstep2
      · rw [show some (encodeTable (insertEntry t0 newPath i))
              = encodeProp (insertEntry t0 newPath i) from
            (encodeProp_of_ne_nil _ (insertEntry_ne_nil t0 newPath i)).symm]
        exact getNewFileIds_encodeProp _ hwIns hndIns
      · exact lookupTable_insertEntry_self t0 newPath i
      · rw [if_pos hnil]
        exact lookupTable_insertEntry_ne t0 newPath i oldPath hne
    · have hwD : wfTable (eraseKey t0 oldPath) := wfTable_eraseKey t0 oldPath hw
      have hndD : keysNodup (eraseKey t0 oldPath) := keysNodup_eraseKey t0 oldPath hnd
      have hwI2 : wfTable (insertEntry (eraseKey t0 oldPath) newPath i) :=
        wfTable_insertEntry _ newPath i hwD hcn hci
      have hndI2 : keysNodup (insertEntry (eraseKey t0 oldPath) newPath i) :=
        keysNodup_insertEntry _ newPath i hndD
      have hstep2 : changeFileidMapping "" (some i) newPath (encodeProp (eraseKey t0 oldPath))
          = .ok (some (encodeTable (insertEntry (eraseKey t0 oldPath) newPath i))) :=
        changeFileidMapping_insert (eraseKey t0 oldPath) hwD hndD i newPath
      refine ⟨some (encodeTable (insertEntry (eraseKey t0 oldPath) newPath i)),
              insertEntry (eraseKey t0 oldPath) newPath i, ?_, ?_, ?_, ?_⟩
      · unfold renameOneTable
        rw [hstep1]
        simp only [Bind.bind, Except.bind]
        rw [if_neg hnil]
        rw [show some (encodeTable (eraseKey t0 oldPath)) = encodeProp (eraseKey t0 oldPath) from
              (encodeProp_of_ne_nil _ hnil).symm]
        exact hstep2
      · rw [show some (encodeTable (insertEntry (eraseKey t0 oldPath) newPath i))
              = encodeProp (insertEntry (eraseKey t0 oldPath) newPath i) from
            (encodeProp_of_ne_nil _ (insertEntry_ne_nil _ newPath i)).symm]
        exact getNewFileIds_encodeProp _ hwI2 hndI2
      · exact lookupTable_insertEntry_self (eraseKey t0 oldPath) newPath i
      · rw [if_neg hnil]
        rw [lookupTable_insertEntry_ne (eraseKey t0 oldPath) newPath i oldPath hne]
        exact lookupTable_eraseKey_self t0 oldPath

/-- Witness for C6 (amended) on a one-entry table. -/
theorem move_rename_idtable_amended_witness :
    (wfTable [("a", "x")] ∧ keysNodup [("a", "x")] ∧
     cleanStr "y" ∧ cleanStr "a" ∧ cleanStr "b" ∧ ("a" : String) ≠ "b") ∧
    (∃ p1 t1,
      moveOneTable "" (some "y") "a" "b" (encodeProp [("a", "x")]) = .ok p1 ∧
      getNewFileIds "" p1 = .ok t1 ∧
      lookupTable t1 "a" = none ∧
      lookupTable t1 "b" = some "y") ∧
    (∃ p2 t2,
      renameOneTable "" (some "y") "a" "b" (encodeProp [("a", "x")]) = .ok p2 ∧
      getNewFileIds "" p2 = .ok t2 ∧
      lookupTable t2 "b" = some "y" ∧
      lookupTable t2 "a" =
        (if eraseKey [("a", "x")] "a" = [] then lookupTable [("a", "x")] "a" else none)) :=
  ⟨⟨by decide, by decide, by decide, by decide, by decide, by decide⟩,
   (move_rename_idtable_amended [("a", "x")] "y" "a" "b"
     (by decide) (by decide) (by decide) (by decide) (by decide) (by decide)).1,
   (move_rename_idtable_amended [("a", "x")] "y" "a" "b"
     (by decide) (by decide) (by decide) (by decide) (by decide) (by decide)).2⟩

end SvnWt
